import Mathlib

/-!
Verification development for the planner's task/project graph engine
(`src/hooks/useProjectStore.ts` and the priority views in
`src/components/Dashboard.tsx` / `src/components/ProjectsView.tsx`).

The store's local-state part of every mutation operation is embedded as a
pure function on `StoreState`.  Remote (Firestore) writes are fire-and-forget
and never read back synchronously, so they are not modelled.  JavaScript
`null`/`undefined` on string fields becomes `Option String` (task/project ids
are never the empty string, so JS truthiness of an id coincides with
`Option.isSome`).  Canvas coordinates are modelled as integers: every
arithmetic operation the store performs on them (adding a delta, and the
auto-arrange formula `140 * (row - (totalRows-1)/2)` which is the integer
`140*row - 70*(totalRows-1)`) is exact.  React `setX(prev => ...)` updater
calls are given the sequential semantics in which each updater is applied
immediately to the current state, in program order.
-/

namespace Planner

/-- A 2-D canvas position. -/
structure Pos where
  x : Int
  y : Int
deriving DecidableEq, Repr

/-- A move delta `{dx, dy}`. -/
structure Delta where
  dx : Int
  dy : Int
deriving DecidableEq, Repr

/-- Translating a position by a delta (`{x: p.x + d.dx, y: p.y + d.dy}`). -/
def Pos.translate (p : Pos) (d : Delta) : Pos :=
  { x := p.x + d.dx, y := p.y + d.dy }

/-- Project status enum from `src/types.ts`. -/
inductive ProjectStatus where
  | InProgress
  | Completed
deriving DecidableEq, Repr

/-- A task (`src/types.ts`).  Fields never read by the store/view logic under
verification (dates, attached file data, line style) are omitted; they ride
along unchanged through every operation. -/
structure Task where
  id : String
  title : String
  content : String
  completed : Bool
  completionDate : Option String
  position : Pos
  projectId : Option String
  parentTaskId : Option String
deriving DecidableEq, Repr

/-- A project (`src/types.ts`); `tasks` is the denormalized cached list of its
tasks, the authoritative source being the flat task list filtered by
`projectId`. -/
structure Project where
  id : String
  title : String
  status : ProjectStatus
  tasks : List Task
  position : Pos
  isCollapsed : Bool
deriving DecidableEq, Repr

/-- The local state managed by `useProjectStore` that the claims are about:
projects, the flat task list, and the prioritized task-id sequence. -/
structure StoreState where
  projects : List Project
  tasks : List Task
  prioritizedTaskIds : List String
deriving DecidableEq, Repr

/-- A `Partial<Task>` update payload: `some v` means the field is present.
For the nullable/optional string fields the inner `Option` is the stored
value. -/
structure TaskPatch where
  title : Option String := none
  content : Option String := none
  completed : Option Bool := none
  completionDate : Option (Option String) := none
  position : Option Pos := none
  projectId : Option (Option String) := none
  parentTaskId : Option (Option String) := none
deriving DecidableEq, Repr

/-- Shallow merge `{...t, ...patch}` of a partial task update. -/
def applyTaskPatch (t : Task) (p : TaskPatch) : Task :=
  { t with
    title := p.title.getD t.title
    content := p.content.getD t.content
    completed := p.completed.getD t.completed
    completionDate := p.completionDate.getD t.completionDate
    position := p.position.getD t.position
    projectId := p.projectId.getD t.projectId
    parentTaskId := p.parentTaskId.getD t.parentTaskId }

/-- A `Partial<Omit<Project,'position'>>` update payload. -/
structure ProjectPatch where
  title : Option String := none
  status : Option ProjectStatus := none
  isCollapsed : Option Bool := none
  tasks : Option (List Task) := none
deriving DecidableEq, Repr

/-- Shallow merge of a partial project update. -/
def applyProjectPatch (p : Project) (d : ProjectPatch) : Project :=
  { p with
    title := d.title.getD p.title
    status := d.status.getD p.status
    isCollapsed := d.isCollapsed.getD p.isCollapsed
    tasks := d.tasks.getD p.tasks }

/-- First-occurrence deduplication, the semantics of JavaScript
`Array.from(new Set(ids))`: keeps each id's first occurrence, in order.
`seen` accumulates the ids already emitted. -/
def jsDedupAux : List String → List String → List String
  | [], _ => []
  | x :: xs, seen =>
    if x ∈ seen then jsDedupAux xs seen
    else x :: jsDedupAux xs (x :: seen)

/-- `Array.from(new Set(ids))`: first-occurrence dedup. -/
def jsDedup (l : List String) : List String := jsDedupAux l []

/-- Lookup matching the JS pattern `tasks.reduce((acc,t)=>{acc[t.id]=t})` or
`new Map(tasks.map(t=>[t.id,t]))`: the last binding for an id wins. -/
def byIdLast (tasks : List Task) (id : String) : Option Task :=
  (tasks.filter (fun t => decide (t.id = id))).getLast?

/-- Last-binding-wins lookup for projects (`projects.reduce`/`new Map`). -/
def projByIdLast (projects : List Project) (id : String) : Option Project :=
  (projects.filter (fun p => decide (p.id = id))).getLast?

/-- One fuelled run of the `getAllDescendantTaskIds` BFS loop
(`useProjectStore.ts` lines 228-248 and its copies): pops the queue head,
skips it if visited, otherwise records it and enqueues its not-yet-visited
children.  Returns `none` exactly when the fuel runs out before the queue
empties, so `isSome` states that the loop finishes within the given number
of iterations.  The visited list doubles as `allDescendants` (they always
hold the same ids) and keeps Set insertion order. -/
def bfsStepO (tasks : List Task) : Nat → List String → List String → Option (List String)
  | 0, _, _ => none
  | _ + 1, [], visited => some visited
  | n + 1, cur :: queue, visited =>
    if cur ∈ visited then bfsStepO tasks n queue visited
    else
      let visited2 := visited ++ [cur]
      let newKids :=
        ((tasks.filter (fun t => decide (t.parentTaskId = some cur))).map (fun t => t.id)).filter
          (fun c => decide (c ∉ visited2))
      bfsStepO tasks n (queue ++ newKids) visited2

/-- Fuel sufficient for the BFS to drain its queue (proved below):
one unit per initial queue entry plus, for every id that can ever be
visited, one unit for its own pop and one per child it can enqueue. -/
def descendantFuel (startTaskIds : List String) (allTasks : List Task) : Nat :=
  startTaskIds.length + (startTaskIds.length + allTasks.length) * (allTasks.length + 1) + 1

/-- `getAllDescendantTaskIds(startTaskIds, allTasks)`: the visited-set BFS
descendant closure, in Set insertion order. -/
def getAllDescendantTaskIds (startTaskIds : List String) (allTasks : List Task) : List String :=
  (bfsStepO allTasks (descendantFuel startTaskIds allTasks) startTaskIds []).getD []

/-- The mathematical descendant-closure relation: an id is reachable from the
seeds if it is a seed, or it is the id of a task whose `parentTaskId` is a
reachable id. -/
inductive Reach (tasks : List Task) (seeds : List String) : String → Prop
  | seed {x : String} : x ∈ seeds → Reach tasks seeds x
  | step {p : String} {t : Task} : Reach tasks seeds p → t ∈ tasks →
      t.parentTaskId = some p → Reach tasks seeds t.id

/-- One fuelled run of the ancestor-chain `while` loop of
`unlinkTaskFromParent` (`useProjectStore.ts` lines 731-740).  The loop has no
visited set.  `some r` means the loop finished with `ancestorProjectId = r`;
`none` means the fuel ran out with the loop still running. -/
def ancestorWalkO (tasks : List Task) : Nat → Option String → Option (Option String)
  | 0, _ => none
  | _ + 1, none => some none
  | n + 1, some pid =>
    match tasks.find? (fun t => decide (t.id = pid)) with
    | none => some none
    | some parentTask =>
      match parentTask.projectId with
      | some prj => some (some prj)
      | none => ancestorWalkO tasks n parentTask.parentTaskId

/-- Total version of the ancestor walk used to build the state transformer;
on fuel exhaustion (which in the JS source is a hang) it defaults to `none`
(no ancestor project found). -/
def ancestorWalk (tasks : List Task) (fuel : Nat) (start : Option String) : Option String :=
  (ancestorWalkO tasks fuel start).getD none

/-! Store mutation operations (local-state part of `useProjectStore.ts`).
Nondeterministic inputs of the source — `Date.now()`-based fresh ids and the
`new Date().toISOString()` completion timestamp — are explicit parameters. -/

/-- `addProject`: prepends a fresh in-progress project. -/
def addProject (s : StoreState) (newId title : String) (position : Pos) : StoreState :=
  let newProject : Project :=
    { id := newId, title := title, status := ProjectStatus.InProgress, tasks := [],
      position := position, isCollapsed := false }
  { s with projects := newProject :: s.projects }

/-- `updateProject`: shallow-merges a partial update into every project with
the given id. -/
def updateProject (s : StoreState) (projectId : String) (d : ProjectPatch) : StoreState :=
  { s with projects := s.projects.map (fun p => if p.id = projectId then applyProjectPatch p d else p) }

/-- `toggleProjectCollapse`: flips `isCollapsed` on the matching project. -/
def toggleProjectCollapse (s : StoreState) (projectId : String) : StoreState :=
  { s with projects := s.projects.map (fun p =>
      if p.id = projectId then { p with isCollapsed := !p.isCollapsed } else p) }

/-- `setPrioritizedTasks`: first-occurrence dedup, then replace the stored
sequence. -/
def setPrioritizedTasks (s : StoreState) (ids : List String) : StoreState :=
  { s with prioritizedTaskIds := jsDedup ids }

/-- `finishProject`: if the project exists, removes the descendant closure of
its cached direct tasks from the priority list and marks the project
Completed and collapsed. -/
def finishProject (s : StoreState) (projectId : String) : StoreState :=
  match s.projects.find? (fun p => decide (p.id = projectId)) with
  | none => s
  | some projectToFinish =>
    let directTaskIds := projectToFinish.tasks.map (fun t => t.id)
    let allTaskIdsInProjectTree := getAllDescendantTaskIds directTaskIds s.tasks
    { s with
      prioritizedTaskIds := s.prioritizedTaskIds.filter (fun id => decide (id ∉ allTaskIdsInProjectTree))
      projects := s.projects.map (fun p =>
        if p.id = projectId then { p with status := ProjectStatus.Completed, isCollapsed := true } else p) }

/-- The keep-condition of `reactivateProject`'s active-task filter: an id is
kept unless its (first) flat-list task is completed. -/
def notCompletedIn (tasks : List Task) (id : String) : Bool :=
  match tasks.find? (fun t => decide (t.id = id)) with
  | some t => !t.completed
  | none => true

/-- `reactivateProject`: marks the project InProgress and uncollapsed, then
appends the not-completed members of the descendant closure of its flat-list
direct tasks to the priority list (through the deduplicating
`setPrioritizedTasks`), skipping the append when no such task exists. -/
def reactivateProject (s : StoreState) (projectId : String) : StoreState :=
  let s1 : StoreState :=
    { s with projects := s.projects.map (fun p =>
        if p.id = projectId then { p with status := ProjectStatus.InProgress, isCollapsed := false } else p) }
  let directTaskIds := (s.tasks.filter (fun t => decide (t.projectId = some projectId))).map (fun t => t.id)
  let allTaskIds := getAllDescendantTaskIds directTaskIds s.tasks
  let activeIds := allTaskIds.filter (fun id => notCompletedIn s.tasks id)
  if activeIds.length > 0 then setPrioritizedTasks s1 (s1.prioritizedTaskIds ++ activeIds) else s1

/-- `deleteProject`: removes the descendant closure of the project's
flat-list direct tasks from the task list and the priority list, and the
project itself. -/
def deleteProject (s : StoreState) (projectId : String) : StoreState :=
  let directTaskIds := (s.tasks.filter (fun t => decide (t.projectId = some projectId))).map (fun t => t.id)
  let allTaskIdsToDelete := getAllDescendantTaskIds directTaskIds s.tasks
  { s with
    tasks := s.tasks.filter (fun t => decide (t.id ∉ allTaskIdsToDelete))
    projects := s.projects.filter (fun p => decide (p.id ≠ projectId))
    prioritizedTaskIds := s.prioritizedTaskIds.filter (fun id => decide (id ∉ allTaskIdsToDelete)) }

/-- The `Omit<Task,'id'|'completed'>` payload of `addTask` (the fields the
store reads; `parentTaskId` is overridden to null by the operation). -/
structure TaskData where
  title : String
  content : String
  completionDate : Option String := none
  position : Pos
  projectId : Option String := none
  parentTaskId : Option String := none
deriving DecidableEq, Repr

/-- `addTask`: appends a fresh not-completed root-or-project task, mirrors it
into the owning project's cache when `projectId` is set, and appends its id
to the priority list unless already present. -/
def addTask (s : StoreState) (taskData : TaskData) (newId : String) : StoreState :=
  let newTask : Task :=
    { id := newId, title := taskData.title, content := taskData.content, completed := false,
      completionDate := taskData.completionDate, position := taskData.position,
      projectId := taskData.projectId, parentTaskId := none }
  let s1 : StoreState := { s with tasks := s.tasks ++ [newTask] }
  let s2 : StoreState :=
    match newTask.projectId with
    | some pid =>
      { s1 with projects := s1.projects.map (fun p =>
          if p.id = pid then { p with tasks := p.tasks ++ [newTask] } else p) }
    | none => s1
  if newId ∈ s.prioritizedTaskIds then s2
  else { s2 with prioritizedTaskIds := s.prioritizedTaskIds ++ [newId] }

/-- `updateTask`: a truthy `completed` in the payload removes the id from the
priority list; the partial update is then merged into the flat list and into
every cached copy. -/
def updateTask (s : StoreState) (taskId : String) (taskData : TaskPatch) : StoreState :=
  let prio := if taskData.completed = some true
    then s.prioritizedTaskIds.filter (fun id => decide (id ≠ taskId))
    else s.prioritizedTaskIds
  { s with
    prioritizedTaskIds := prio
    tasks := s.tasks.map (fun t => if t.id = taskId then applyTaskPatch t taskData else t)
    projects := s.projects.map (fun p =>
      { p with tasks := p.tasks.map (fun t => if t.id = taskId then applyTaskPatch t taskData else t) }) }

/-- `updateTaskPosition`: replaces one task's position in the flat list and
in every cache. -/
def updateTaskPosition (s : StoreState) (taskId : String) (position : Pos) : StoreState :=
  { s with
    tasks := s.tasks.map (fun t => if t.id = taskId then { t with position := position } else t)
    projects := s.projects.map (fun p =>
      { p with tasks := p.tasks.map (fun t => if t.id = taskId then { t with position := position } else t) }) }

/-- `deleteTask`: removes the task from the flat list, from its owning
project's cache (found through the flat list, no cascade to children), and
from the priority list. -/
def deleteTask (s : StoreState) (taskId : String) : StoreState :=
  let taskToDelete := s.tasks.find? (fun t => decide (t.id = taskId))
  let s1 : StoreState := { s with tasks := s.tasks.filter (fun t => decide (t.id ≠ taskId)) }
  let s2 : StoreState :=
    match taskToDelete with
    | some td =>
      match td.projectId with
      | some pid =>
        { s1 with projects := s1.projects.map (fun p =>
            if p.id = pid then { p with tasks := p.tasks.filter (fun t => decide (t.id ≠ taskId)) } else p) }
      | none => s1
    | none => s1
  { s2 with prioritizedTaskIds := s2.prioritizedTaskIds.filter (fun id => decide (id ≠ taskId)) }

/-- `moveProjectGroup`: if the project exists, translates by `delta` the
project's position and the position of every task in the descendant closure
of the union of its cached direct tasks and the flat-list tasks carrying its
`projectId`; the project's cache is rebuilt from the updated flat list. -/
def moveProjectGroup (s : StoreState) (projectId : String) (delta : Delta) : StoreState :=
  match s.projects.find? (fun p => decide (p.id = projectId)) with
  | none => s
  | some projectToMove =>
    let directTaskIds := jsDedup
      (projectToMove.tasks.map (fun t => t.id) ++
        (s.tasks.filter (fun t => decide (t.projectId = some projectId))).map (fun t => t.id))
    let allTaskIdsToMove := getAllDescendantTaskIds directTaskIds s.tasks
    let updatedTasks := s.tasks.map (fun t =>
      if t.id ∈ allTaskIdsToMove then { t with position := t.position.translate delta } else t)
    { s with
      tasks := updatedTasks
      projects := s.projects.map (fun p =>
        if p.id = projectId then
          { p with position := p.position.translate delta,
                   tasks := updatedTasks.filter (fun t => decide (t.projectId = some projectId)) }
        else p) }

/-- Position of a moved task as recorded in `moveTaskSubtree`'s
`newPositions` map (`Map.set`, so the last flat-list binding wins). -/
def newPositionOf (flat : List Task) (delta : Delta) (id : String) : Option Pos :=
  ((flat.filter (fun t => decide (t.id = id))).getLast?).map (fun t => t.position.translate delta)

/-- `moveTaskSubtree`: no-op on zero delta or a missing root; otherwise
translates the descendant closure of the root task in the flat list, and
patches cached copies from the `newPositions` map. -/
def moveTaskSubtree (s : StoreState) (rootTaskId : String) (delta : Delta) : StoreState :=
  if delta.dx = 0 ∧ delta.dy = 0 then s
  else match s.tasks.find? (fun t => decide (t.id = rootTaskId)) with
  | none => s
  | some _ =>
    let idsToMove := getAllDescendantTaskIds [rootTaskId] s.tasks
    if idsToMove.isEmpty then s
    else
      { s with
        tasks := s.tasks.map (fun t =>
          if t.id ∈ idsToMove then { t with position := t.position.translate delta } else t)
        projects := s.projects.map (fun p =>
          { p with tasks := p.tasks.map (fun t =>
              if t.id ∈ idsToMove then
                { t with position := (newPositionOf s.tasks delta t.id).getD t.position }
              else t) }) }

/-- `linkTaskToProject`: sets the task's `projectId` and clears its
`parentTaskId` in the flat list; the captured updated task (last matching
flat entry) is appended to the target project's cache. -/
def linkTaskToProject (s : StoreState) (taskId projectId : String) : StoreState :=
  let taskToLink := ((s.tasks.filter (fun t => decide (t.id = taskId))).getLast?).map
    (fun t => { t with projectId := some projectId, parentTaskId := none })
  let s1 : StoreState :=
    { s with tasks := s.tasks.map (fun t =>
        if t.id = taskId then { t with projectId := some projectId, parentTaskId := none } else t) }
  match taskToLink with
  | some finalTask =>
    { s1 with projects := s1.projects.map (fun p =>
        if p.id = projectId then { p with tasks := p.tasks ++ [finalTask] } else p) }
  | none => s1

/-- `linkTaskToTask(childTaskId, parentTaskId)` with the wall-clock
completion timestamp as parameter `now`: re-points the child under the
parent (clearing its `projectId`), marks the parent completed preserving a
pre-existing completion date, removes the parent id from the priority list
and appends the child id; caches are updated accordingly, the child leaving
the cache of the project that contained it. -/
def linkTaskToTask (s : StoreState) (childTaskId parentTaskId : String) (now : String) : StoreState :=
  let parentBefore := s.tasks.find? (fun t => decide (t.id = parentTaskId))
  let effectiveCompletionDate :=
    match parentBefore with
    | some pb => pb.completionDate.getD now
    | none => now
  let prio := (s.prioritizedTaskIds.filter (fun id => decide (id ≠ parentTaskId))) ++ [childTaskId]
  let newFlat := s.tasks.map (fun t =>
    if t.id = childTaskId then { t with parentTaskId := some parentTaskId, projectId := none }
    else if t.id = parentTaskId then { t with completed := true, completionDate := some effectiveCompletionDate }
    else t)
  let childTaskProject := s.projects.find? (fun p => p.tasks.any (fun t => decide (t.id = childTaskId)))
  let newProjects := s.projects.map (fun p =>
    let newTasks := p.tasks.map (fun t =>
      if t.id = parentTaskId then { t with completed := true, completionDate := some effectiveCompletionDate } else t)
    match childTaskProject with
    | some cp =>
      if p.id = cp.id then { p with tasks := newTasks.filter (fun t => decide (t.id ≠ childTaskId)) }
      else { p with tasks := newTasks }
    | none => { p with tasks := newTasks })
  { s with prioritizedTaskIds := prio, tasks := newFlat, projects := newProjects }

/-- `unlinkTask(projectId, taskId)`: removes the task from the matching
project's cache; the flat-list `projectId` is cleared only when the task was
actually found in that cache (the captured `taskToUnlink`, last matching
project's find). -/
def unlinkTask (s : StoreState) (projectId taskId : String) : StoreState :=
  let taskToUnlink :=
    ((s.projects.filter (fun p => decide (p.id = projectId))).getLast?).bind
      (fun p => p.tasks.find? (fun t => decide (t.id = taskId)))
  let s1 : StoreState :=
    { s with projects := s.projects.map (fun p =>
        if p.id = projectId then { p with tasks := p.tasks.filter (fun t => decide (t.id ≠ taskId)) } else p) }
  match taskToUnlink with
  | some _ =>
    { s1 with tasks := s1.tasks.map (fun t => if t.id = taskId then { t with projectId := none } else t) }
  | none => s1

/-- `unlinkTaskFromParent`: no-op unless the child exists and has a parent;
walks the (guardless) ancestor chain for the nearest ancestor `projectId`,
then re-roots the child under that project (or fully unlinked), moving its
cache entry accordingly. -/
def unlinkTaskFromParent (s : StoreState) (childTaskId : String) : StoreState :=
  match s.tasks.find? (fun t => decide (t.id = childTaskId)) with
  | none => s
  | some childTask =>
    match childTask.parentTaskId with
    | none => s
    | some _ =>
      let ancestorProjectId := ancestorWalk s.tasks (s.tasks.length + 1) childTask.parentTaskId
      let updatedChild := { childTask with parentTaskId := none, projectId := ancestorProjectId }
      { s with
        tasks := s.tasks.map (fun t => if t.id = childTaskId then updatedChild else t)
        projects := s.projects.map (fun p =>
          let filtered := p.tasks.filter (fun t => decide (t.id ≠ childTaskId))
          match ancestorProjectId with
          | some apid =>
            if p.id = apid then { p with tasks := filtered ++ [updatedChild] } else { p with tasks := filtered }
          | none => { p with tasks := filtered }) }

/-! Auto-arrange layout engine (`autoArrangeProjectTasks`). -/

/-- Lexicographic code-unit comparison of character lists, modelling the
`localeCompare`-based title ordering (the scenarios under verification use
plain ASCII titles, where locale order is code-unit order). -/
def lexLtChars : List Char → List Char → Bool
  | [], [] => false
  | [], _ :: _ => true
  | _ :: _, [] => false
  | a :: as, b :: bs =>
    if a.val < b.val then true else if b.val < a.val then false else lexLtChars as bs

/-- String strict order used by the task sorter. -/
def strLt (a b : String) : Bool := lexLtChars a.data b.data

/-- The `taskSorter` comparator as a total `le`: title ascending, identifier
ascending as tie-break. -/
def taskLe (a b : Task) : Bool :=
  strLt a.title b.title ||
    (decide (a.title = b.title) && (strLt a.id b.id || decide (a.id = b.id)))

/-- Insert a task into a `taskLe`-sorted list. -/
def insertSortedTask (t : Task) : List Task → List Task
  | [] => [t]
  | x :: xs => if taskLe x t then x :: insertSortedTask t xs else t :: x :: xs

/-- Sort tasks by `taskSorter` (title, then identifier). -/
def sortTasks : List Task → List Task
  | [] => []
  | x :: xs => insertSortedTask x (sortTasks xs)

/-- `childrenByParent.get(taskId)` after the sorting pass: the direct
children of a task, in title-then-identifier order. -/
def childrenOfSorted (tasks : List Task) (taskId : String) : List Task :=
  sortTasks (tasks.filter (fun t => decide (t.parentTaskId = some taskId)))

/-- Fuelled depth-first collection of every id reachable from the seed
stack, with the `inProjectSet.has` guard (`collectDescendants`). -/
def collectDescAux (tasks : List Task) : Nat → List String → List String → List String
  | 0, _, seen => seen
  | _ + 1, [], seen => seen
  | n + 1, id :: stack, seen =>
    if id ∈ seen then collectDescAux tasks n stack seen
    else collectDescAux tasks n
      (((tasks.filter (fun t => decide (t.parentTaskId = some id))).map (fun t => t.id)) ++ stack)
      (seen ++ [id])

/-- `getSubtreeRows`: 1 for a leaf, else the sum of the rows of the children
that lie inside the project's reachable set (floored at 1).  The explicit
fuel bounds the recursion depth; `tasks.length + 1` suffices whenever the
subtree below the argument is acyclic. -/
def subtreeRows (tasks : List Task) (inSet : List String) : Nat → String → Nat
  | 0, _ => 1
  | n + 1, taskId =>
    let kids := (childrenOfSorted tasks taskId).filter (fun k => decide (k.id ∈ inSet))
    if kids.isEmpty then 1
    else max (kids.foldl (fun sum k => sum + subtreeRows tasks inSet n k.id) 0) 1

/-- `rowDepthById.set` (JavaScript `Map.set`: replaces an existing binding). -/
def setRowDepth (m : List (String × Nat × Nat)) (id : String) (v : Nat × Nat) :
    List (String × Nat × Nat) :=
  (m.filter (fun e => decide (e.1 ≠ id))) ++ [(id, v)]

/-- The recursive `assign`: places a task at
`row = startRow + (rows - 1) / 2` and the given depth, then stacks its
in-set children from `startRow`, each child's band starting where the
previous one's ended. -/
def assignAux (tasks : List Task) (inSet : List String) (rowsFuel : Nat) :
    Nat → Task → Nat → Nat → List (String × Nat × Nat) → List (String × Nat × Nat)
  | 0, _, _, _, m => m
  | n + 1, t, depth, startRow, m =>
    let rows := subtreeRows tasks inSet rowsFuel t.id
    let m1 := setRowDepth m t.id (startRow + (rows - 1) / 2, depth)
    let kids := (childrenOfSorted tasks t.id).filter (fun k => decide (k.id ∈ inSet))
    (kids.foldl
      (fun (acc : List (String × Nat × Nat) × Nat) k =>
        (assignAux tasks inSet rowsFuel n k (depth + 1) acc.2 acc.1,
         acc.2 + subtreeRows tasks inSet rowsFuel k.id))
      (m1, startRow)).1

/-- The row/depth assignment pass of `autoArrangeProjectTasks`: sorted roots
(tasks of the project with no parent) are given consecutive bands with a
one-row gap; returns the `(id, row, depth)` map and the final `currentRow`
(so `totalRows = currentRow - 1`). -/
def layoutProject (tasks : List Task) (projectId : String) :
    List (String × Nat × Nat) × Nat :=
  let roots := sortTasks (tasks.filter (fun t =>
    decide (t.projectId = some projectId) && decide (t.parentTaskId = none)))
  let rootIds := roots.map (fun t => t.id)
  let inSet := collectDescAux tasks (descendantFuel rootIds tasks) rootIds []
  let rowsFuel := tasks.length + 1
  roots.foldl
    (fun (acc : List (String × Nat × Nat) × Nat) r =>
      (assignAux tasks inSet rowsFuel (tasks.length + 1) r 1 acc.2 acc.1,
       acc.2 + subtreeRows tasks inSet rowsFuel r.id + 1))
    ([], 0)

/-- `autoArrangeProjectTasks`: turns the row/depth grid into pixel positions
(`x = project.x + depth*280`, `y = project.y + (row - (totalRows-1)/2)*140`,
written with the exact integer form `140*row - 70*(totalRows-1)`) and applies
them to the flat list and the project's cache. -/
def autoArrangeProjectTasks (s : StoreState) (projectId : String) : StoreState :=
  match s.projects.find? (fun p => decide (p.id = projectId)) with
  | none => s
  | some project =>
    let layout := layoutProject s.tasks projectId
    let rowDepthById := layout.1
    if rowDepthById.isEmpty then s
    else
      let totalRows : Int := if layout.2 > 0 then (layout.2 : Int) - 1 else 0
      let newPositions : List (String × Pos) := rowDepthById.map (fun e =>
        (e.1, { x := project.position.x + (e.2.2 : Int) * 280,
                y := project.position.y + 140 * (e.2.1 : Int) - 70 * (totalRows - 1) }))
      { s with
        tasks := s.tasks.map (fun t =>
          match newPositions.lookup t.id with
          | some pos => { t with position := pos }
          | none => t)
        projects := s.projects.map (fun p =>
          if p.id = projectId then
            { p with tasks := p.tasks.map (fun t =>
                match newPositions.lookup t.id with
                | some pos => { t with position := pos }
                | none => t) }
          else p) }

/-! Priority views (`Dashboard.tsx`, `ProjectsView.tsx`). -/

/-- Fuelled `findRootProject` walk shared by the priority views: follows
`parentTaskId` links (with a visited set) to the nearest task carrying a
`projectId` and resolves that project; `none` for unlinked chains, broken
references, cycles, or fuel exhaustion.  Lookups are last-binding-wins, as
in the views' id maps. -/
def findRootProjectFuel (tasks : List Task) (projects : List Project) :
    Nat → List String → String → Option Project
  | 0, _, _ => none
  | n + 1, visited, currentId =>
    if currentId ∈ visited then none
    else
      match byIdLast tasks currentId with
      | none => none
      | some task =>
        match task.projectId with
        | some pid => projByIdLast projects pid
        | none =>
          match task.parentTaskId with
          | some next => findRootProjectFuel tasks projects n (visited ++ [currentId]) next
          | none => none

/-- `findRootProject(taskId)`: run the walk with ample fuel (the visited set
grows every iteration, so `tasks.length + 2` iterations always finish). -/
def findRootProject (tasks : List Task) (projects : List Project) (taskId : String) :
    Option Project :=
  findRootProjectFuel tasks projects (tasks.length + 2) [] taskId

/-- Dashboard's `filteredPrioritized`: keeps a prioritized id only when its
task exists, is not completed, and its resolved root project exists and is
InProgress. -/
def filteredPrioritized (s : StoreState) : List String :=
  s.prioritizedTaskIds.filter (fun id =>
    match byIdLast s.tasks id with
    | none => false
    | some t =>
      if t.completed then false
      else
        match findRootProject s.tasks s.projects id with
        | some root => decide (root.status = ProjectStatus.InProgress)
        | none => false)

/-- ProjectsView's `prioritizedDisplayOrder`: dedups the stored sequence,
then keeps an id when its task exists, is not completed, and its resolved
root is null or an InProgress project. -/
def prioritizedDisplayOrder (s : StoreState) : List String :=
  (jsDedup s.prioritizedTaskIds).filter (fun id =>
    match byIdLast s.tasks id with
    | none => false
    | some t =>
      if t.completed then false
      else
        match findRootProject s.tasks s.projects id with
        | some root => decide (root.status = ProjectStatus.InProgress)
        | none => true)

/-- The priority pane's `tasksForPrioritization`: every not-completed task
whose resolved root is null or an InProgress project. -/
def tasksForPrioritization (s : StoreState) : List Task :=
  s.tasks.filter (fun task =>
    if task.completed then false
    else
      match findRootProject s.tasks s.projects task.id with
      | some root => decide (root.status = ProjectStatus.InProgress)
      | none => true)

/-! The store's operation algebra. -/

/-- One store mutation operation with its external inputs (fresh ids and the
completion timestamp are parameters of the corresponding constructors). -/
inductive Op where
  | addProject (newId title : String) (position : Pos)
  | updateProject (projectId : String) (d : ProjectPatch)
  | toggleProjectCollapse (projectId : String)
  | setPrioritizedTasks (ids : List String)
  | finishProject (projectId : String)
  | reactivateProject (projectId : String)
  | deleteProject (projectId : String)
  | addTask (taskData : TaskData) (newId : String)
  | updateTask (taskId : String) (taskData : TaskPatch)
  | updateTaskPosition (taskId : String) (position : Pos)
  | deleteTask (taskId : String)
  | moveProjectGroup (projectId : String) (delta : Delta)
  | moveTaskSubtree (rootTaskId : String) (delta : Delta)
  | linkTaskToProject (taskId projectId : String)
  | linkTaskToTask (childTaskId parentTaskId : String) (now : String)
  | unlinkTask (projectId taskId : String)
  | unlinkTaskFromParent (childTaskId : String)
  | autoArrangeProjectTasks (projectId : String)
deriving DecidableEq, Repr

/-- Apply one operation to the store state. -/
def applyOp (s : StoreState) : Op → StoreState
  | .addProject newId title position => addProject s newId title position
  | .updateProject projectId d => updateProject s projectId d
  | .toggleProjectCollapse projectId => toggleProjectCollapse s projectId
  | .setPrioritizedTasks ids => setPrioritizedTasks s ids
  | .finishProject projectId => finishProject s projectId
  | .reactivateProject projectId => reactivateProject s projectId
  | .deleteProject projectId => deleteProject s projectId
  | .addTask taskData newId => addTask s taskData newId
  | .updateTask taskId taskData => updateTask s taskId taskData
  | .updateTaskPosition taskId position => updateTaskPosition s taskId position
  | .deleteTask taskId => deleteTask s taskId
  | .moveProjectGroup projectId delta => moveProjectGroup s projectId delta
  | .moveTaskSubtree rootTaskId delta => moveTaskSubtree s rootTaskId delta
  | .linkTaskToProject taskId projectId => linkTaskToProject s taskId projectId
  | .linkTaskToTask childTaskId parentTaskId now => linkTaskToTask s childTaskId parentTaskId now
  | .unlinkTask projectId taskId => unlinkTask s projectId taskId
  | .unlinkTaskFromParent childTaskId => unlinkTaskFromParent s childTaskId
  | .autoArrangeProjectTasks projectId => autoArrangeProjectTasks s projectId

/-- Invariant 1 (exclusivity): every task in the flat list has at most one of
projectId and parentTaskId non-null. -/
def Exclusive (s : StoreState) : Prop :=
  ∀ t ∈ s.tasks, t.projectId = none ∨ t.parentTaskId = none

/-- The mutation operations covered by the exclusivity claim: `addTask`,
the link/unlink operations, `updateTask` carrying no link field, the move
operations, and the deletes. -/
def LinkSafeOp : Op → Prop
  | .addTask _ _ => True
  | .linkTaskToProject _ _ => True
  | .linkTaskToTask _ _ _ => True
  | .unlinkTask _ _ => True
  | .unlinkTaskFromParent _ => True
  | .updateTask _ taskData => taskData.projectId = none ∧ taskData.parentTaskId = none
  | .updateTaskPosition _ _ => True
  | .moveProjectGroup _ _ => True
  | .moveTaskSubtree _ _ => True
  | .deleteTask _ => True
  | .deleteProject _ => True
  | _ => False

/-- Side condition under which a single operation preserves priority-list
dedup: unrestricted except for `linkTaskToTask`, whose child must not
already be prioritized (or must coincide with the parent being removed). -/
def NodupSafe (s : StoreState) : Op → Prop
  | .linkTaskToTask childTaskId parentTaskId _ =>
    childTaskId ∉ s.prioritizedTaskIds ∨ childTaskId = parentTaskId
  | _ => True

/-! Concrete states used to instantiate or refute the claims. -/

/-- Shorthand task constructor: title mirrors the id, origin position. -/
def mkTask (id : String) (projectId parentTaskId : Option String)
    (completed : Bool := false) : Task :=
  { id := id, title := id, content := "", completed := completed, completionDate := none,
    position := { x := 0, y := 0 }, projectId := projectId, parentTaskId := parentTaskId }

/-- Shorthand project constructor. -/
def mkProject (id : String) (tasks : List Task)
    (status : ProjectStatus := ProjectStatus.InProgress) : Project :=
  { id := id, title := id, status := status, tasks := tasks,
    position := { x := 0, y := 0 }, isCollapsed := false }

/-- Corrupt flat list whose parent references form the cycle
`a → b → a` (neither carries a projectId), reachable from task `c`. -/
def cyclicTasks : List Task :=
  [mkTask "c" none (some "a"), mkTask "a" none (some "b"), mkTask "b" none (some "a")]

/-- State in which the already-prioritized task `c` is linked under `p`. -/
def SLinkDup : StoreState :=
  { projects := [], tasks := [mkTask "c" none none, mkTask "p" none none],
    prioritizedTaskIds := ["c"] }

/-- State with project `p` owning tasks `a` and `b` (cache consistent with
the flat list), prioritized in the order `b` before `a`. -/
def SRoundTrip : StoreState :=
  { projects := [mkProject "p" [mkTask "a" (some "p") none, mkTask "b" (some "p") none]],
    tasks := [mkTask "a" (some "p") none, mkTask "b" (some "p") none],
    prioritizedTaskIds := ["b", "a"] }

/-- State with a single prioritized unlinked task `u`. -/
def SUnlinked : StoreState :=
  { projects := [], tasks := [mkTask "u" none none], prioritizedTaskIds := ["u"] }

/-- State whose project `p` has a stale (empty) cache while the flat task `t`
still carries `projectId = p`. -/
def SStaleCache : StoreState :=
  { projects := [mkProject "p" []], tasks := [mkTask "t" (some "p") none],
    prioritizedTaskIds := [] }

/-- Auto-arrange scenario: project `p` with roots `r1` (children `c1`, `c2`,
both leaves) and `r2` (one leaf child `c3`); sort order is the id order. -/
def SArrange : StoreState :=
  { projects := [mkProject "p" []],
    tasks := [mkTask "r1" (some "p") none, mkTask "r2" (some "p") none,
              mkTask "c1" none (some "r1"), mkTask "c2" none (some "r1"),
              mkTask "c3" none (some "r2")],
    prioritizedTaskIds := [] }

/-- The row/depth assignment computed for the auto-arrange scenario. -/
def SArrangeLayout : List (String × Nat × Nat) × Nat := layoutProject SArrange.tasks "p"

/-- The reachable set computed for the auto-arrange scenario's two roots. -/
def SArrangeInSet : List String :=
  collectDescAux SArrange.tasks (descendantFuel ["r1", "r2"] SArrange.tasks) ["r1", "r2"] []

/-- A parent task that already carries a completion date. -/
def p0Task : Task :=
  { mkTask "p0" none none with completed := true, completionDate := some "2024-01-01" }

/-- Two-task state used to exercise `linkTaskToTask`'s postcondition: the
parent `p0` already carries a completion date. -/
def SLinkPost : StoreState :=
  { projects := [],
    tasks := [mkTask "c0" none none, p0Task],
    prioritizedTaskIds := ["p0", "c0", "z"] }

/-- State whose project `p` caches its task `t` consistently. -/
def SCached : StoreState :=
  { projects := [mkProject "p" [mkTask "t" (some "p") none]],
    tasks := [mkTask "t" (some "p") none], prioritizedTaskIds := [] }

/-- The `directTaskIdSet` union built by `moveProjectGroup`: cached direct
tasks of the found project joined with the flat-list tasks carrying the
project id, first occurrence kept (Set insertion order). -/
def directChildIds (s : StoreState) (projectId : String) (proj : Project) : List String :=
  jsDedup (proj.tasks.map (fun t => t.id) ++
    (s.tasks.filter (fun t => decide (t.projectId = some projectId))).map (fun t => t.id))

/-! Lemmas about the helper structures, then the claim theorems. -/

theorem mem_jsDedupAux {x : String} :
    ∀ {l seen : List String}, x ∈ jsDedupAux l seen ↔ x ∈ l ∧ x ∉ seen := by
  intro l
  induction l with
  | nil => intro seen; simp [jsDedupAux]
  | cons y ys ih =>
    intro seen
    by_cases hy : y ∈ seen
    · rw [jsDedupAux, if_pos hy, ih]
      constructor
      · rintro ⟨hx, hs⟩; exact ⟨List.mem_cons_of_mem _ hx, hs⟩
      · rintro ⟨hx, hs⟩
        rcases List.mem_cons.mp hx with rfl | hx
        · exact absurd hy hs
        · exact ⟨hx, hs⟩
    · rw [jsDedupAux, if_neg hy]
      constructor
      · intro hx
        rcases List.mem_cons.mp hx with rfl | hx
        · exact ⟨List.mem_cons_self _ _, hy⟩
        · rcases ih.mp hx with ⟨h1, h2⟩
          refine ⟨List.mem_cons_of_mem _ h1, fun hs => h2 (List.mem_cons_of_mem _ hs)⟩
      · rintro ⟨hx, hs⟩
        rcases List.mem_cons.mp hx with rfl | hx
        · exact List.mem_cons_self _ _
        · by_cases hxy : x = y
          · subst hxy; exact List.mem_cons_self _ _
          · exact List.mem_cons_of_mem _ (ih.mpr ⟨hx, by
              intro hmem
              rcases List.mem_cons.mp hmem with h | h
              · exact hxy h
              · exact hs h⟩)

theorem mem_jsDedup {x : String} {l : List String} : x ∈ jsDedup l ↔ x ∈ l := by
  rw [jsDedup, mem_jsDedupAux]; simp

theorem jsDedupAux_nodup : ∀ (l seen : List String), (jsDedupAux l seen).Nodup := by
  intro l
  induction l with
  | nil => intro seen; simp [jsDedupAux]
  | cons y ys ih =>
    intro seen
    by_cases hy : y ∈ seen
    · rw [jsDedupAux, if_pos hy]; exact ih seen
    · rw [jsDedupAux, if_neg hy]
      refine List.nodup_cons.mpr ⟨fun hmem => ?_, ih _⟩
      exact (mem_jsDedupAux.mp hmem).2 (List.mem_cons_self _ _)

theorem jsDedup_nodup (l : List String) : (jsDedup l).Nodup := jsDedupAux_nodup l []

theorem jsDedupAux_eq_self : ∀ (l seen : List String), l.Nodup → (∀ x ∈ l, x ∉ seen) →
    jsDedupAux l seen = l := by
  intro l
  induction l with
  | nil => intro seen _ _; rfl
  | cons y ys ih =>
    intro seen hnd hsep
    have hy : y ∉ seen := hsep y (List.mem_cons_self _ _)
    rw [jsDedupAux, if_neg hy]
    have hnd2 := List.nodup_cons.mp hnd
    refine congrArg (y :: ·) (ih _ hnd2.2 ?_)
    intro x hx
    intro hmem
    rcases List.mem_cons.mp hmem with rfl | h
    · exact hnd2.1 hx
    · exact hsep x (List.mem_cons_of_mem _ hx) h

theorem jsDedup_eq_self {l : List String} (h : l.Nodup) : jsDedup l = l :=
  jsDedupAux_eq_self l [] h (by simp)

theorem length_filter_lt {a : String} {l : List String} (h : a ∈ l) {p : String → Bool}
    (hp : p a = false) : (l.filter p).length < l.length := by
  induction l with
  | nil => cases h
  | cons x xs ih =>
    rcases List.mem_cons.mp h with rfl | hx
    · rw [List.filter_cons, hp, if_neg Bool.false_ne_true]
      exact Nat.lt_succ_of_le (List.length_filter_le p xs)
    · rw [List.filter_cons]
      by_cases hpx : p x = true
      · rw [if_pos hpx]
        exact Nat.succ_lt_succ (ih hx)
      · rw [if_neg hpx]
        exact Nat.lt_succ_of_lt (ih hx)

/-- The BFS drains its queue within the stated fuel: one unit per queue
entry plus `tasks.length + 1` units per candidate id not yet visited.  `C`
is any fixed superset of the queue entries and the task ids. -/
theorem bfsStepO_isSome (tasks : List Task) (C : List String) :
    ∀ (n : Nat) (queue visited : List String), (∀ x ∈ queue, x ∈ C) →
      (∀ t ∈ tasks, t.id ∈ C) →
      queue.length + (C.filter (fun c => decide (c ∉ visited))).length * (tasks.length + 1) < n →
      (bfsStepO tasks n queue visited).isSome := by
  intro n
  induction n with
  | zero => intro queue visited _ _ hm; exact absurd hm (Nat.not_lt_zero _)
  | succ n ih =>
    intro queue visited hq ht hm
    match queue with
    | [] => simp [bfsStepO]
    | cur :: queue =>
      rw [bfsStepO]
      by_cases hcur : cur ∈ visited
      · rw [if_pos hcur]
        refine ih queue visited (fun x hx => hq x (List.mem_cons_of_mem _ hx)) ht ?_
        simp only [List.length_cons] at hm
        omega
      · rw [if_neg hcur]
        set visited2 := visited ++ [cur] with hvis2
        set newKids :=
          ((tasks.filter (fun t => decide (t.parentTaskId = some cur))).map (fun t => t.id)).filter
            (fun c => decide (c ∉ visited2)) with hkids
        refine ih (queue ++ newKids) visited2 ?_ ht ?_
        · intro x hx
          rcases List.mem_append.mp hx with hx | hx
          · exact hq x (List.mem_cons_of_mem _ hx)
          · have hx2 := List.mem_of_mem_filter hx
            rcases List.mem_map.mp hx2 with ⟨t, htt, rfl⟩
            exact ht t (List.mem_of_mem_filter htt)
        · have hsplit : C.filter (fun c => decide (c ∉ visited2)) =
              (C.filter (fun c => decide (c ∉ visited))).filter (fun c => decide (c ≠ cur)) := by
            rw [List.filter_filter]
            refine List.filter_congr ?_
            intro x _
            by_cases h1 : x ∈ visited
            · simp [hvis2, h1]
            · by_cases h2 : x = cur <;> simp [hvis2, h1, h2]
          have hcurC : cur ∈ C.filter (fun c => decide (c ∉ visited)) :=
            List.mem_filter.mpr ⟨hq cur (List.mem_cons_self _ _), by simpa using hcur⟩
          have hlt : (C.filter (fun c => decide (c ∉ visited2))).length <
              (C.filter (fun c => decide (c ∉ visited))).length := by
            rw [hsplit]
            exact length_filter_lt hcurC (by simp)
          have hkb : newKids.length ≤ tasks.length := by
            calc newKids.length
                ≤ ((tasks.filter (fun t => decide (t.parentTaskId = some cur))).map
                    (fun t => t.id)).length := List.length_filter_le _ _
              _ = (tasks.filter (fun t => decide (t.parentTaskId = some cur))).length :=
                    List.length_map _ _
              _ ≤ tasks.length := List.length_filter_le _ _
          set u := (C.filter (fun c => decide (c ∉ visited))).length with hu
          set u2 := (C.filter (fun c => decide (c ∉ visited2))).length with hu2
          have hmul : u2 * (tasks.length + 1) + (tasks.length + 1) ≤ u * (tasks.length + 1) := by
            have h1 : u2 + 1 ≤ u := hlt
            calc u2 * (tasks.length + 1) + (tasks.length + 1)
                = (u2 + 1) * (tasks.length + 1) := by ring
              _ ≤ u * (tasks.length + 1) := Nat.mul_le_mul_right _ h1
          simp only [List.length_cons, List.length_append] at hm ⊢
          set A := u * (tasks.length + 1)
          set B := u2 * (tasks.length + 1)
          omega

/-- The result list of a completed BFS run extends the visited list and
contains every queue entry. -/
theorem bfsStepO_superset (tasks : List Task) :
    ∀ (n : Nat) (queue visited r : List String), bfsStepO tasks n queue visited = some r →
      (∀ x ∈ visited, x ∈ r) ∧ (∀ x ∈ queue, x ∈ r) := by
  intro n
  induction n with
  | zero => intro queue visited r h; cases h
  | succ n ih =>
    intro queue visited r h
    match queue with
    | [] =>
      rw [bfsStepO] at h
      cases h
      exact ⟨fun x hx => hx, fun x hx => (List.not_mem_nil x hx).elim⟩
    | cur :: queue =>
      rw [bfsStepO] at h
      by_cases hcur : cur ∈ visited
      · rw [if_pos hcur] at h
        rcases ih queue visited r h with ⟨h1, h2⟩
        refine ⟨h1, fun x hx => ?_⟩
        rcases List.mem_cons.mp hx with rfl | hx
        · exact h1 x hcur
        · exact h2 x hx
      · rw [if_neg hcur] at h
        rcases ih _ _ r h with ⟨h1, h2⟩
        have hcr : cur ∈ r := h1 cur (by simp)
        refine ⟨fun x hx => h1 x (List.mem_append.mpr (Or.inl hx)), fun x hx => ?_⟩
        rcases List.mem_cons.mp hx with rfl | hx
        · exact hcr
        · exact h2 x (List.mem_append.mpr (Or.inl hx))

/-- Every id a completed BFS run returns is either an already-visited id, a
queue entry, or reachable from one of them through parent links. -/
theorem bfsStepO_sound (tasks : List Task) (seeds : List String) :
    ∀ (n : Nat) (queue visited r : List String), bfsStepO tasks n queue visited = some r →
      (∀ x ∈ queue, Reach tasks seeds x) → (∀ x ∈ visited, Reach tasks seeds x) →
      ∀ x ∈ r, Reach tasks seeds x := by
  intro n
  induction n with
  | zero => intro queue visited r h; cases h
  | succ n ih =>
    intro queue visited r h hq hv
    match queue with
    | [] =>
      rw [bfsStepO] at h
      cases h
      exact hv
    | cur :: queue =>
      rw [bfsStepO] at h
      by_cases hcur : cur ∈ visited
      · rw [if_pos hcur] at h
        exact ih queue visited r h (fun x hx => hq x (List.mem_cons_of_mem _ hx)) hv
      · rw [if_neg hcur] at h
        refine ih _ _ r h ?_ ?_
        · intro x hx
          rcases List.mem_append.mp hx with hx | hx
          · exact hq x (List.mem_cons_of_mem _ hx)
          · have hx2 := List.mem_of_mem_filter hx
            rcases List.mem_map.mp hx2 with ⟨t, htt, rfl⟩
            have hpt : t.parentTaskId = some cur := by
              have := List.of_mem_filter htt
              simpa using this
            exact Reach.step (hq cur (List.mem_cons_self _ _)) (List.mem_of_mem_filter htt) hpt
        · intro x hx
          rcases List.mem_append.mp hx with hx | hx
          · exact hv x hx
          · rcases List.mem_singleton.mp hx with rfl
            exact hq x (List.mem_cons_self _ _)

/-- Once the BFS completes, its result is closed under the child relation,
provided every child of an already-visited id was already scheduled. -/
theorem bfsStepO_closed (tasks : List Task) :
    ∀ (n : Nat) (queue visited r : List String), bfsStepO tasks n queue visited = some r →
      (∀ x ∈ visited, ∀ t ∈ tasks, t.parentTaskId = some x → (t.id ∈ visited ∨ t.id ∈ queue)) →
      ∀ x ∈ r, ∀ t ∈ tasks, t.parentTaskId = some x → t.id ∈ r := by
  intro n
  induction n with
  | zero => intro queue visited r h; cases h
  | succ n ih =>
    intro queue visited r h hcl
    match queue with
    | [] =>
      rw [bfsStepO] at h
      cases h
      intro x hx t htt hpt
      rcases hcl x hx t htt hpt with h1 | h1
      · exact h1
      · exact (List.not_mem_nil _ h1).elim
    | cur :: queue =>
      rw [bfsStepO] at h
      by_cases hcur : cur ∈ visited
      · rw [if_pos hcur] at h
        refine ih queue visited r h ?_
        intro x hx t htt hpt
        rcases hcl x hx t htt hpt with h1 | h1
        · exact Or.inl h1
        · rcases List.mem_cons.mp h1 with rfl | h1
          · exact Or.inl hcur
          · exact Or.inr h1
      · rw [if_neg hcur] at h
        refine ih _ _ r h ?_
        intro x hx t htt hpt
        rcases List.mem_append.mp hx with hx | hx
        · rcases hcl x hx t htt hpt with h1 | h1
          · exact Or.inl (List.mem_append.mpr (Or.inl h1))
          · rcases List.mem_cons.mp h1 with rfl | h1
            · exact Or.inl (by simp)
            · exact Or.inr (List.mem_append.mpr (Or.inl h1))
        · rcases List.mem_singleton.mp hx with rfl
          by_cases hin : t.id ∈ visited ++ [x]
          · exact Or.inl hin
          · refine Or.inr (List.mem_append.mpr (Or.inr ?_))
            refine List.mem_filter.mpr ⟨?_, by simpa using hin⟩
            exact List.mem_map.mpr ⟨t, List.mem_filter.mpr ⟨htt, by simpa using hpt⟩, rfl⟩

/-- A completed BFS run starting from nodup visited ids keeps them nodup. -/
theorem bfsStepO_nodup (tasks : List Task) :
    ∀ (n : Nat) (queue visited r : List String), bfsStepO tasks n queue visited = some r →
      visited.Nodup → r.Nodup := by
  intro n
  induction n with
  | zero => intro queue visited r h; cases h
  | succ n ih =>
    intro queue visited r h hnd
    match queue with
    | [] =>
      rw [bfsStepO] at h
      cases h
      exact hnd
    | cur :: queue =>
      rw [bfsStepO] at h
      by_cases hcur : cur ∈ visited
      · rw [if_pos hcur] at h
        exact ih queue visited r h hnd
      · rw [if_neg hcur] at h
        refine ih _ _ r h ?_
        simpa [List.nodup_append] using ⟨hnd, hcur⟩

/-- The canonical fuel completes the descendant BFS. -/
theorem getAllDescendantTaskIds_spec (startTaskIds : List String) (allTasks : List Task) :
    bfsStepO allTasks (descendantFuel startTaskIds allTasks) startTaskIds [] =
      some (getAllDescendantTaskIds startTaskIds allTasks) := by
  have hsome := bfsStepO_isSome allTasks (startTaskIds ++ allTasks.map (fun t => t.id))
    (descendantFuel startTaskIds allTasks) startTaskIds []
    (fun x hx => List.mem_append.mpr (Or.inl hx))
    (fun t ht => List.mem_append.mpr (Or.inr (List.mem_map.mpr ⟨t, ht, rfl⟩)))
    (by
      have hfe : ((startTaskIds ++ allTasks.map (fun t => t.id)).filter
          (fun c => decide (c ∉ ([] : List String)))) =
          startTaskIds ++ allTasks.map (fun t => t.id) :=
        List.filter_eq_self.mpr (by intro a _; simp)
      rw [hfe]
      simp only [List.length_append, List.length_map, descendantFuel]
      omega)
  cases hres : bfsStepO allTasks (descendantFuel startTaskIds allTasks) startTaskIds [] with
  | none => rw [hres] at hsome; simp at hsome
  | some r => rw [getAllDescendantTaskIds, hres]; rfl

/-- The BFS descendant closure computes exactly the reachability closure of
the seed set through parent links. -/
theorem mem_getAllDescendantTaskIds {startTaskIds : List String} {allTasks : List Task}
    {x : String} :
    x ∈ getAllDescendantTaskIds startTaskIds allTasks ↔ Reach allTasks startTaskIds x := by
  have hrun := getAllDescendantTaskIds_spec startTaskIds allTasks
  constructor
  · intro hx
    exact bfsStepO_sound allTasks startTaskIds _ _ _ _ hrun
      (fun y hy => Reach.seed hy) (fun y hy => (List.not_mem_nil y hy).elim) x hx
  · intro hr
    induction hr with
    | seed hs => exact (bfsStepO_superset allTasks _ _ _ _ hrun).2 _ hs
    | step hr htt hpt ih =>
      exact bfsStepO_closed allTasks _ _ _ _ hrun
        (fun y hy => (List.not_mem_nil y hy).elim) _ ih _ htt hpt

/-- The BFS descendant closure never lists an id twice. -/
theorem getAllDescendantTaskIds_nodup (startTaskIds : List String) (allTasks : List Task) :
    (getAllDescendantTaskIds startTaskIds allTasks).Nodup :=
  bfsStepO_nodup allTasks _ _ _ _ (getAllDescendantTaskIds_spec startTaskIds allTasks)
    List.nodup_nil

/-- C10: an update whose `completed` field is absent or false leaves the
stored prioritized sequence exactly unchanged; only a truthy `completed`
removes the id, and un-completing never re-inserts. -/
theorem updateTask_prioritized_frame (s : StoreState) (taskId : String) (taskData : TaskPatch)
    (h : taskData.completed ≠ some true) :
    (updateTask s taskId taskData).prioritizedTaskIds = s.prioritizedTaskIds := by
  simp only [updateTask, if_neg h]

/-- Witness for C10 at a concrete input: un-completing the task `u` leaves
the priority list untouched. -/
theorem updateTask_prioritized_frame_witness :
    ({ completed := some false } : TaskPatch).completed ≠ some true ∧
      (updateTask SUnlinked "u" { completed := some false }).prioritizedTaskIds =
        SUnlinked.prioritizedTaskIds :=
  ⟨by decide, updateTask_prioritized_frame SUnlinked "u" _ (by decide)⟩

/-- C2 counterexample: from the dedup-clean state `SLinkDup` (priority list
`["c"]`), the single operation `linkTaskToTask("c", "p")` produces the
duplicated priority list `["c", "c"]` — it removes only the parent id before
appending the child id. -/
theorem linkTaskToTask_dup_cex :
    SLinkDup.prioritizedTaskIds.Nodup ∧
      (linkTaskToTask SLinkDup "c" "p" "T").prioritizedTaskIds = ["c", "c"] ∧
      ¬ ((linkTaskToTask SLinkDup "c" "p" "T").prioritizedTaskIds).Nodup := by
  refine ⟨by decide, by decide, by decide⟩

/-- C2 (amended): every single store operation preserves dedup of the
prioritized sequence, except that `linkTaskToTask` does so only when the
child id is not already prioritized (or coincides with the removed parent
id). -/
theorem applyOp_prioritized_nodup (s : StoreState) (op : Op)
    (hnd : s.prioritizedTaskIds.Nodup) (hsafe : NodupSafe s op) :
    ((applyOp s op).prioritizedTaskIds).Nodup := by
  cases op with
  | addProject newId title position => exact hnd
  | updateProject projectId d => exact hnd
  | toggleProjectCollapse projectId => exact hnd
  | setPrioritizedTasks ids => exact jsDedup_nodup ids
  | finishProject projectId =>
    simp only [applyOp, finishProject]
    rcases hf : s.projects.find? (fun p => decide (p.id = projectId)) with _ | proj <;>
      simp only [hf]
    · exact hnd
    · exact hnd.filter _
  | reactivateProject projectId =>
    simp only [applyOp, reactivateProject]
    split
    · exact jsDedup_nodup _
    · exact hnd
  | deleteProject projectId => exact hnd.filter _
  | addTask taskData newId =>
    simp only [applyOp, addTask]
    rcases taskData.projectId with _ | pid
    · split
      · exact hnd
      · refine List.nodup_append.mpr ⟨hnd, List.nodup_singleton _, ?_⟩
        intro x hx hx2
        rcases List.mem_singleton.mp hx2 with rfl
        exact (by assumption : ¬ x ∈ s.prioritizedTaskIds) hx
    · split
      · exact hnd
      · refine List.nodup_append.mpr ⟨hnd, List.nodup_singleton _, ?_⟩
        intro x hx hx2
        rcases List.mem_singleton.mp hx2 with rfl
        exact (by assumption : ¬ x ∈ s.prioritizedTaskIds) hx
  | updateTask taskId taskData =>
    simp only [applyOp, updateTask]
    split
    · exact hnd.filter _
    · exact hnd
  | updateTaskPosition taskId position => exact hnd
  | deleteTask taskId =>
    simp only [applyOp, deleteTask]
    rcases hf : s.tasks.find? (fun t => decide (t.id = taskId)) with _ | td <;>
      simp only [hf]
    · exact hnd.filter _
    · rcases hp : td.projectId with _ | pid <;> simp only [hp]
      · exact hnd.filter _
      · exact hnd.filter _
  | moveProjectGroup projectId delta =>
    simp only [applyOp, moveProjectGroup]
    rcases hf : s.projects.find? (fun p => decide (p.id = projectId)) with _ | proj <;>
      simp only [hf]
    · exact hnd
    · exact hnd
  | moveTaskSubtree rootTaskId delta =>
    simp only [applyOp, moveTaskSubtree]
    split
    · exact hnd
    · rcases hf : s.tasks.find? (fun t => decide (t.id = rootTaskId)) with _ | t0 <;>
        simp only [hf]
      · exact hnd
      · split
        · exact hnd
        · exact hnd
  | linkTaskToProject taskId projectId =>
    simp only [applyOp, linkTaskToProject]
    split
    · exact hnd
    · exact hnd
  | linkTaskToTask childTaskId parentTaskId now =>
    have hsafe2 : childTaskId ∉ s.prioritizedTaskIds ∨ childTaskId = parentTaskId := hsafe
    simp only [applyOp, linkTaskToTask]
    refine List.nodup_append.mpr ⟨hnd.filter _, List.nodup_singleton _, ?_⟩
    intro x hx hx2
    rcases List.mem_singleton.mp hx2 with rfl
    have hxp : x ≠ parentTaskId := by simpa using List.of_mem_filter hx
    have hxm : x ∈ s.prioritizedTaskIds := List.mem_of_mem_filter hx
    rcases hsafe2 with hc | hc
    · exact hc hxm
    · exact hxp hc
  | unlinkTask projectId taskId =>
    simp only [applyOp, unlinkTask]
    split
    · exact hnd
    · exact hnd
  | unlinkTaskFromParent childTaskId =>
    simp only [applyOp, unlinkTaskFromParent]
    rcases hf : s.tasks.find? (fun t => decide (t.id = childTaskId)) with _ | childTask <;>
      simp only [hf]
    · exact hnd
    · rcases hp : childTask.parentTaskId with _ | pid <;> simp only [hp]
      · exact hnd
      · exact hnd
  | autoArrangeProjectTasks projectId =>
    simp only [applyOp, autoArrangeProjectTasks]
    rcases hf : s.projects.find? (fun p => decide (p.id = projectId)) with _ | proj <;>
      simp only [hf]
    · exact hnd
    · split
      · exact hnd
      · exact hnd

/-- Witness for the amended C2 at a concrete input: adding task `n` to
`SUnlinked` keeps the priority list duplicate-free. -/
theorem applyOp_prioritized_nodup_witness :
    SUnlinked.prioritizedTaskIds.Nodup ∧
      NodupSafe SUnlinked
        (Op.addTask { title := "n", content := "", position := { x := 0, y := 0 } } "n") ∧
      ((applyOp SUnlinked
        (Op.addTask { title := "n", content := "", position := { x := 0, y := 0 } } "n")).prioritizedTaskIds).Nodup :=
  ⟨by decide, trivial,
    applyOp_prioritized_nodup SUnlinked _ (by decide) trivial⟩

/-- The ancestor-chain walk of `unlinkTaskFromParent` cycles forever between
`a` and `b` on the corrupt state `cyclicTasks`: no amount of fuel completes
it. -/
theorem ancestorWalkO_cycle (n : Nat) :
    ancestorWalkO cyclicTasks n (some "a") = none ∧
      ancestorWalkO cyclicTasks n (some "b") = none := by
  induction n with
  | zero => exact ⟨rfl, rfl⟩
  | succ n ih =>
    constructor
    · have hstep : ancestorWalkO cyclicTasks (n + 1) (some "a") =
          ancestorWalkO cyclicTasks n (some "b") := rfl
      rw [hstep]; exact ih.2
    · have hstep : ancestorWalkO cyclicTasks (n + 1) (some "b") =
          ancestorWalkO cyclicTasks n (some "a") := rfl
      rw [hstep]; exact ih.1

/-- C3: refuted on the code — `unlinkTaskFromParent`'s upward parent-chain
walk has no visited set, so on the corrupt state `cyclicTasks` (task `c`
with parent chain `a → b → a`, no projectId) the loop never finishes: for
every step count the fuelled walk is still running.  The BFS traversals do
terminate on every input (`bfsStepO_isSome`), so the spec's mandatory
visited-check is violated only here. -/
theorem unlinkTaskFromParent_walk_diverges :
    ∀ n : Nat, ancestorWalkO cyclicTasks n (some "a") = none :=
  fun n => (ancestorWalkO_cycle n).1

/-- C5 counterexample: the unlinked, not-completed, prioritized task `u`
(resolved root null) is excluded from Dashboard's `filteredPrioritized`,
although the claimed eligibility rule ("root null or InProgress") admits it. -/
theorem filteredPrioritized_excludes_unlinked_cex :
    "u" ∈ SUnlinked.prioritizedTaskIds ∧
      byIdLast SUnlinked.tasks "u" = some (mkTask "u" none none) ∧
      (mkTask "u" none none).completed = false ∧
      findRootProject SUnlinked.tasks SUnlinked.projects "u" = none ∧
      "u" ∉ filteredPrioritized SUnlinked := by
  refine ⟨by decide, by decide, by decide, by decide, by decide⟩

/-- C5 (amended): a stored prioritized id is displayed in ProjectsView's
`prioritizedDisplayOrder` (and a task offered by `tasksForPrioritization`)
iff its task exists, is not completed, and its resolved root is null or an
InProgress project; Dashboard's `filteredPrioritized` additionally requires
the resolved root to exist, excluding null-root (unlinked) ids. -/
theorem priority_display_characterization (s : StoreState) (id : String) :
    (id ∈ filteredPrioritized s ↔
      id ∈ s.prioritizedTaskIds ∧ ∃ t, byIdLast s.tasks id = some t ∧ t.completed = false ∧
        ∃ root, findRootProject s.tasks s.projects id = some root ∧
          root.status = ProjectStatus.InProgress) ∧
    (id ∈ prioritizedDisplayOrder s ↔
      id ∈ s.prioritizedTaskIds ∧ ∃ t, byIdLast s.tasks id = some t ∧ t.completed = false ∧
        (findRootProject s.tasks s.projects id = none ∨
          ∃ root, findRootProject s.tasks s.projects id = some root ∧
            root.status = ProjectStatus.InProgress)) ∧
    (∀ task ∈ s.tasks,
      (task ∈ tasksForPrioritization s ↔ task.completed = false ∧
        (findRootProject s.tasks s.projects task.id = none ∨
          ∃ root, findRootProject s.tasks s.projects task.id = some root ∧
            root.status = ProjectStatus.InProgress))) := by
  refine ⟨?_, ?_, ?_⟩
  · rw [filteredPrioritized, List.mem_filter]
    rcases hby : byIdLast s.tasks id with _ | t
    · simp [hby]
    · rcases ht : t.completed with _ | _
      · rcases hr : findRootProject s.tasks s.projects id with _ | root
        · simp [hby, ht, hr]
        · simp [hby, ht, hr]
      · simp [hby, ht]
  · rw [prioritizedDisplayOrder, List.mem_filter, mem_jsDedup]
    rcases hby : byIdLast s.tasks id with _ | t
    · simp [hby]
    · rcases ht : t.completed with _ | _
      · rcases hr : findRootProject s.tasks s.projects id with _ | root
        · simp [hby, ht, hr]
        · simp [hby, ht, hr]
      · simp [hby, ht]
  · intro task htask
    rw [tasksForPrioritization, List.mem_filter]
    rcases ht : task.completed with _ | _
    · rcases hr : findRootProject s.tasks s.projects task.id with _ | root
      · simp [htask, ht, hr]
      · simp [htask, ht, hr]
    · simp [htask, ht]

/-- C9 counterexample: with project `p` carrying a stale empty cache,
`unlinkTask("p", "t")` leaves the flat list unchanged — task `t` still
carries `projectId = some "p"` instead of the claimed null. -/
theorem unlinkTask_stale_cache_cex :
    SStaleCache.tasks = [mkTask "t" (some "p") none] ∧
      (unlinkTask SStaleCache "p" "t").tasks = [mkTask "t" (some "p") none] ∧
      (mkTask "t" (some "p") none).projectId = some "p" := by
  refine ⟨by decide, by decide, by decide⟩

/-- C9 (amended): `unlinkTask(projectId, taskId)` always removes the task
from the matching project's cached list; the flat-list `projectId` is
cleared exactly when the task was found in that cached list beforehand, and
the flat list is untouched otherwise. -/
theorem unlinkTask_amended (s : StoreState) (projectId taskId : String) :
    (∀ p ∈ (unlinkTask s projectId taskId).projects, p.id = projectId →
        ∀ t ∈ p.tasks, t.id ≠ taskId) ∧
    ((((s.projects.filter (fun p => decide (p.id = projectId))).getLast?).bind
        (fun p => p.tasks.find? (fun t => decide (t.id = taskId)))).isSome = true →
      ∀ t ∈ (unlinkTask s projectId taskId).tasks, t.id = taskId → t.projectId = none) ∧
    ((((s.projects.filter (fun p => decide (p.id = projectId))).getLast?).bind
        (fun p => p.tasks.find? (fun t => decide (t.id = taskId)))) = none →
      (unlinkTask s projectId taskId).tasks = s.tasks) := by
  have hcache : ∀ p ∈ (unlinkTask s projectId taskId).projects, p.id = projectId →
      ∀ t ∈ p.tasks, t.id ≠ taskId := by
    intro p hp hpid t ht
    have hp2 : p ∈ s.projects.map (fun p =>
        if p.id = projectId then
          { p with tasks := p.tasks.filter (fun t => decide (t.id ≠ taskId)) }
        else p) := by
      rcases hfound : (((s.projects.filter (fun p => decide (p.id = projectId))).getLast?).bind
          (fun p => p.tasks.find? (fun t => decide (t.id = taskId)))) with _ | tt <;>
        simpa only [unlinkTask, hfound] using hp
    rcases List.mem_map.mp hp2 with ⟨p0, hp0, rfl⟩
    by_cases hid : p0.id = projectId
    · rw [if_pos hid] at ht
      have h2 := List.of_mem_filter (p := fun t : Task => decide (t.id ≠ taskId)) ht
      simpa using h2
    · rw [if_neg hid] at hpid
      exact absurd hpid hid
  refine ⟨hcache, ?_, ?_⟩
  · intro h t ht hid
    rcases hfound : (((s.projects.filter (fun p => decide (p.id = projectId))).getLast?).bind
        (fun p => p.tasks.find? (fun t => decide (t.id = taskId)))) with _ | tt
    · rw [hfound] at h
      exact absurd h (by simp)
    · simp only [unlinkTask, hfound] at ht
      rcases List.mem_map.mp ht with ⟨t0, ht0, rfl⟩
      by_cases h0 : t0.id = taskId
      · rw [if_pos h0]
      · rw [if_neg h0] at hid ⊢
        exact absurd hid h0
  · intro h
    rcases hfound : (((s.projects.filter (fun p => decide (p.id = projectId))).getLast?).bind
        (fun p => p.tasks.find? (fun t => decide (t.id = taskId)))) with _ | tt
    · simp only [unlinkTask, hfound]
    · rw [hfound] at h
      exact absurd h (by simp)

/-- Witness for the amended C9 at a concrete input: in the cache-consistent
state `SCached`, unlinking `t` from `p` clears the flat-list `projectId`. -/
theorem unlinkTask_amended_witness :
    (∀ t ∈ (unlinkTask SCached "p" "t").tasks, t.id = "t" → t.projectId = none) :=
  (unlinkTask_amended SCached "p" "t").2.1 (by decide)

/-- C8: after `linkTaskToTask(child, parent)` (parent present as `pt`,
distinct from the child), the parent id is gone from the priority list, the
child id sits at its last position, every flat task with the child's id is
re-rooted under the parent with a null `projectId`, and every flat task with
the parent's id is completed carrying `pt`'s old completion date when present
(the fresh timestamp only otherwise). -/
theorem linkTaskToTask_post (s : StoreState) (childTaskId parentTaskId now : String) (pt : Task)
    (hp : s.tasks.find? (fun t => decide (t.id = parentTaskId)) = some pt)
    (hne : childTaskId ≠ parentTaskId) :
    parentTaskId ∉ (linkTaskToTask s childTaskId parentTaskId now).prioritizedTaskIds ∧
    (linkTaskToTask s childTaskId parentTaskId now).prioritizedTaskIds.getLast? =
      some childTaskId ∧
    (∀ t ∈ (linkTaskToTask s childTaskId parentTaskId now).tasks, t.id = childTaskId →
        t.projectId = none ∧ t.parentTaskId = some parentTaskId) ∧
    (∀ t ∈ (linkTaskToTask s childTaskId parentTaskId now).tasks, t.id = parentTaskId →
        t.completed = true ∧ t.completionDate = some (pt.completionDate.getD now) ∧
        (∀ d : String, pt.completionDate = some d → t.completionDate = some d)) := by
  refine ⟨?_, ?_, ?_, ?_⟩
  · intro hmem
    simp only [linkTaskToTask, hp] at hmem
    rcases List.mem_append.mp hmem with h | h
    · have := List.of_mem_filter (p := fun id => decide (id ≠ parentTaskId)) h
      simp at this
    · exact hne (List.mem_singleton.mp h).symm
  · simp only [linkTaskToTask, hp]
    exact List.getLast?_concat _
  · intro t ht hid
    simp only [linkTaskToTask, hp] at ht
    rcases List.mem_map.mp ht with ⟨t0, ht0, rfl⟩
    by_cases h0 : t0.id = childTaskId
    · rw [if_pos h0]
      exact ⟨rfl, rfl⟩
    · rw [if_neg h0] at hid ⊢
      by_cases h1 : t0.id = parentTaskId
      · rw [if_pos h1] at hid
        exact absurd hid h0
      · rw [if_neg h1] at hid
        exact absurd hid h0
  · intro t ht hid
    simp only [linkTaskToTask, hp] at ht
    rcases List.mem_map.mp ht with ⟨t0, ht0, rfl⟩
    by_cases h0 : t0.id = childTaskId
    · rw [if_pos h0] at hid
      exact absurd (h0.symm.trans hid) hne
    · rw [if_neg h0] at hid ⊢
      by_cases h1 : t0.id = parentTaskId
      · rw [if_pos h1]
        refine ⟨rfl, rfl, ?_⟩
        intro d hd
        simp [hd]
      · rw [if_neg h1] at hid
        exact absurd hid h1
/-- C7: the auto-arrange scenario of `SArrange` — roots `r1` (two leaf
children) and `r2` (one leaf child): rows(r1) = 2, rows(r2) = 1, the total
row band is 4 (`currentRow` 5 minus the trailing gap), `r1` sits at row 0
depth 1 with its children at rows 0 and 1 (depth 2), and `r2`'s band starts
at row 3 (row 3 + floor((1-1)/2), depth 1; its child at row 3, depth 2),
matching `row = bandStart + floor((rows-1)/2)` and `depth = parent + 1`. -/
theorem autoArrange_scenario :
    subtreeRows SArrange.tasks SArrangeInSet (SArrange.tasks.length + 1) "r1" = 2 ∧
    subtreeRows SArrange.tasks SArrangeInSet (SArrange.tasks.length + 1) "r2" = 1 ∧
    SArrangeLayout.2 = 5 ∧
    SArrangeLayout.2 - 1 = 4 ∧
    SArrangeLayout.1.lookup "r1" = some (0, 1) ∧
    SArrangeLayout.1.lookup "c1" = some (0, 2) ∧
    SArrangeLayout.1.lookup "c2" = some (1, 2) ∧
    SArrangeLayout.1.lookup "r2" = some (3, 1) ∧
    SArrangeLayout.1.lookup "c3" = some (3, 2) := by
  refine ⟨by decide, by decide, by decide, by decide, by decide, by decide, by decide,
    by decide, by decide⟩

/-- C4 counterexample: in `SRoundTrip` the not-completed descendants `a`, `b`
of project `p` are prioritized as `["b", "a"]`; after `finishProject` then
`reactivateProject` they reappear as `["a", "b"]` — the pre-existing relative
order is not preserved (the append uses BFS order, not priority order). -/
theorem finish_reactivate_order_cex :
    SRoundTrip.prioritizedTaskIds = ["b", "a"] ∧
      (∀ t ∈ SRoundTrip.tasks, t.completed = false) ∧
      (reactivateProject (finishProject SRoundTrip "p") "p").prioritizedTaskIds = ["a", "b"] := by
  refine ⟨by decide, by decide, by decide⟩

/-- C4 (amended): for a project found as `proj` whose cached direct-task ids
agree with the flat list, `finishProject` then `reactivateProject` yields the
surviving entries followed by exactly the not-completed descendant-closure
ids — so every previously prioritized not-completed descendant reappears
after the remaining entries and completed descendants do not — but in the
descendant-closure (BFS) order rather than their previous relative order. -/
theorem finish_reactivate_round_trip (s : StoreState) (projectId : String) (proj : Project)
    (hfind : s.projects.find? (fun p => decide (p.id = projectId)) = some proj)
    (hcache : proj.tasks.map (fun t => t.id) =
      (s.tasks.filter (fun t => decide (t.projectId = some projectId))).map (fun t => t.id))
    (hnd : s.prioritizedTaskIds.Nodup) :
    (reactivateProject (finishProject s projectId) projectId).prioritizedTaskIds =
      s.prioritizedTaskIds.filter (fun id =>
        decide (id ∉ getAllDescendantTaskIds (proj.tasks.map (fun t => t.id)) s.tasks)) ++
      (getAllDescendantTaskIds (proj.tasks.map (fun t => t.id)) s.tasks).filter
        (fun id => notCompletedIn s.tasks id) := by
  have hF : finishProject s projectId = { s with
      prioritizedTaskIds := s.prioritizedTaskIds.filter (fun id =>
        decide (id ∉ getAllDescendantTaskIds (proj.tasks.map (fun t => t.id)) s.tasks)),
      projects := s.projects.map (fun p =>
        if p.id = projectId then { p with status := ProjectStatus.Completed, isCollapsed := true }
        else p) } := by
    simp only [finishProject, hfind]
  rw [hF]
  have hclosure : getAllDescendantTaskIds
      ((s.tasks.filter (fun t => decide (t.projectId = some projectId))).map (fun t => t.id))
      s.tasks = getAllDescendantTaskIds (proj.tasks.map (fun t => t.id)) s.tasks := by
    rw [← hcache]
  simp only [reactivateProject, hclosure]
  split
  · show jsDedup _ = _
    apply jsDedup_eq_self
    refine List.nodup_append.mpr ⟨hnd.filter _,
      (getAllDescendantTaskIds_nodup _ _).filter _, ?_⟩
    intro x hx1 hx2
    have h1 : x ∉ getAllDescendantTaskIds (proj.tasks.map (fun t => t.id)) s.tasks := by
      simpa using List.of_mem_filter hx1
    exact h1 (List.mem_of_mem_filter hx2)
  · rename_i hlen
    have hempty : ((getAllDescendantTaskIds (proj.tasks.map (fun t => t.id)) s.tasks).filter
        (fun id => notCompletedIn s.tasks id)) = [] := by
      refine List.length_eq_zero.mp ?_
      omega
    rw [hempty, List.append_nil]

/-- Witness for the amended C4 at a concrete input: the round trip on
`SRoundTrip` produces the closure in BFS order. -/
theorem finish_reactivate_round_trip_witness :
    SRoundTrip.projects.find? (fun p => decide (p.id = "p")) =
        some (mkProject "p" [mkTask "a" (some "p") none, mkTask "b" (some "p") none]) ∧
    (mkProject "p" [mkTask "a" (some "p") none, mkTask "b" (some "p") none]).tasks.map
        (fun t => t.id) =
      (SRoundTrip.tasks.filter (fun t => decide (t.projectId = some "p"))).map (fun t => t.id) ∧
    SRoundTrip.prioritizedTaskIds.Nodup ∧
    (reactivateProject (finishProject SRoundTrip "p") "p").prioritizedTaskIds =
      SRoundTrip.prioritizedTaskIds.filter (fun id =>
        decide (id ∉ getAllDescendantTaskIds
          ((mkProject "p" [mkTask "a" (some "p") none, mkTask "b" (some "p") none]).tasks.map
            (fun t => t.id)) SRoundTrip.tasks)) ++
      (getAllDescendantTaskIds
        ((mkProject "p" [mkTask "a" (some "p") none, mkTask "b" (some "p") none]).tasks.map
          (fun t => t.id)) SRoundTrip.tasks).filter
        (fun id => notCompletedIn SRoundTrip.tasks id) :=
  ⟨by decide, by decide, by decide,
    finish_reactivate_round_trip SRoundTrip "p" _ (by decide) (by decide) (by decide)⟩

/-- C6: `moveProjectGroup` on a present project translates by `delta` the
position of exactly the project and of the tasks reachable (through parent
links) from the union of the cached and flat direct children, leaving every
other task and project — including their positions — fully unchanged. -/
theorem moveProjectGroup_spec (s : StoreState) (projectId : String) (delta : Delta)
    (proj : Project)
    (hfind : s.projects.find? (fun p => decide (p.id = projectId)) = some proj) :
    ((moveProjectGroup s projectId delta).tasks.length = s.tasks.length) ∧
    ((moveProjectGroup s projectId delta).projects.length = s.projects.length) ∧
    (∀ (i : Nat) (t : Task), s.tasks[i]? = some t →
      (Reach s.tasks (directChildIds s projectId proj) t.id →
        (moveProjectGroup s projectId delta).tasks[i]? =
          some { t with position := t.position.translate delta }) ∧
      (¬ Reach s.tasks (directChildIds s projectId proj) t.id →
        (moveProjectGroup s projectId delta).tasks[i]? = some t)) ∧
    (∀ (j : Nat) (p : Project), s.projects[j]? = some p →
      (p.id = projectId →
        ∃ q, (moveProjectGroup s projectId delta).projects[j]? = some q ∧
          q.position = p.position.translate delta) ∧
      (p.id ≠ projectId → (moveProjectGroup s projectId delta).projects[j]? = some p)) := by
  have hM : moveProjectGroup s projectId delta = { s with
      tasks := s.tasks.map (fun t =>
        if t.id ∈ getAllDescendantTaskIds (directChildIds s projectId proj) s.tasks then
          { t with position := t.position.translate delta }
        else t),
      projects := s.projects.map (fun p =>
        if p.id = projectId then
          { p with position := p.position.translate delta,
                   tasks := (s.tasks.map (fun t =>
                     if t.id ∈ getAllDescendantTaskIds (directChildIds s projectId proj) s.tasks
                     then { t with position := t.position.translate delta }
                     else t)).filter (fun t => decide (t.projectId = some projectId)) }
        else p) } := by
    simp only [moveProjectGroup, hfind, directChildIds]
  refine ⟨?_, ?_, ?_, ?_⟩
  · rw [hM]
    exact List.length_map _ _
  · rw [hM]
    exact List.length_map _ _
  · intro i t ht
    rw [hM]
    constructor
    · intro hr
      have hmem : t.id ∈ getAllDescendantTaskIds (directChildIds s projectId proj) s.tasks :=
        mem_getAllDescendantTaskIds.mpr hr
      simp only [List.getElem?_map, ht, Option.map_some']
      rw [if_pos hmem]
    · intro hr
      have hmem : t.id ∉ getAllDescendantTaskIds (directChildIds s projectId proj) s.tasks :=
        fun hx => hr (mem_getAllDescendantTaskIds.mp hx)
      simp only [List.getElem?_map, ht, Option.map_some']
      rw [if_neg hmem]
  · intro j p hp
    rw [hM]
    constructor
    · intro hid
      simp only [List.getElem?_map, hp, Option.map_some']
      rw [if_pos hid]
      exact ⟨_, rfl, rfl⟩
    · intro hid
      simp only [List.getElem?_map, hp, Option.map_some']
      rw [if_neg hid]

/-- Witness for C6 at a concrete input: moving project `p` of `SCached` by
`(10, 5)`. -/
theorem moveProjectGroup_spec_witness :
    SCached.projects.find? (fun p => decide (p.id = "p")) =
        some (mkProject "p" [mkTask "t" (some "p") none]) ∧
    ((moveProjectGroup SCached "p" { dx := 10, dy := 5 }).tasks.length =
        SCached.tasks.length) ∧
    ((moveProjectGroup SCached "p" { dx := 10, dy := 5 }).projects.length =
        SCached.projects.length) ∧
    (∀ (i : Nat) (t : Task), SCached.tasks[i]? = some t →
      (Reach SCached.tasks (directChildIds SCached "p" (mkProject "p" [mkTask "t" (some "p") none]))
          t.id →
        (moveProjectGroup SCached "p" { dx := 10, dy := 5 }).tasks[i]? =
          some { t with position := t.position.translate { dx := 10, dy := 5 } }) ∧
      (¬ Reach SCached.tasks
          (directChildIds SCached "p" (mkProject "p" [mkTask "t" (some "p") none])) t.id →
        (moveProjectGroup SCached "p" { dx := 10, dy := 5 }).tasks[i]? = some t)) ∧
    (∀ (j : Nat) (p : Project), SCached.projects[j]? = some p →
      (p.id = "p" →
        ∃ q, (moveProjectGroup SCached "p" { dx := 10, dy := 5 }).projects[j]? = some q ∧
          q.position = p.position.translate { dx := 10, dy := 5 }) ∧
      (p.id ≠ "p" →
        (moveProjectGroup SCached "p" { dx := 10, dy := 5 }).projects[j]? = some p)) := by
  have h := moveProjectGroup_spec SCached "p" { dx := 10, dy := 5 }
    (mkProject "p" [mkTask "t" (some "p") none]) (by decide)
  exact ⟨by decide, h.1, h.2.1, h.2.2.1, h.2.2.2⟩

/-- Witness for C8 at a concrete input: linking `c0` under the
already-completed parent `p0` of `SLinkPost`. -/
theorem linkTaskToTask_post_witness :
    SLinkPost.tasks.find? (fun t => decide (t.id = "p0")) = some p0Task ∧
    ("c0" : String) ≠ "p0" ∧
    ("p0" ∉ (linkTaskToTask SLinkPost "c0" "p0" "T9").prioritizedTaskIds ∧
      (linkTaskToTask SLinkPost "c0" "p0" "T9").prioritizedTaskIds.getLast? = some "c0" ∧
      (∀ t ∈ (linkTaskToTask SLinkPost "c0" "p0" "T9").tasks, t.id = "c0" →
          t.projectId = none ∧ t.parentTaskId = some "p0") ∧
      (∀ t ∈ (linkTaskToTask SLinkPost "c0" "p0" "T9").tasks, t.id = "p0" →
          t.completed = true ∧ t.completionDate = some (p0Task.completionDate.getD "T9") ∧
          (∀ d : String, p0Task.completionDate = some d → t.completionDate = some d))) :=
  ⟨by decide, by decide,
    linkTaskToTask_post SLinkPost "c0" "p0" "T9" p0Task (by decide) (by decide)⟩

/-- Each operation in the exclusivity claim's list keeps Invariant 1: no
task ends up with both a project and a parent task. -/
theorem applyOp_exclusive (s : StoreState) (op : Op) (hE : Exclusive s)
    (hop : LinkSafeOp op) : Exclusive (applyOp s op) := by
  cases op with
  | addProject newId title position => exact hop.elim
  | updateProject projectId d => exact hop.elim
  | toggleProjectCollapse projectId => exact hop.elim
  | setPrioritizedTasks ids => exact hop.elim
  | finishProject projectId => exact hop.elim
  | reactivateProject projectId => exact hop.elim
  | autoArrangeProjectTasks projectId => exact hop.elim
  | deleteProject projectId =>
    intro t ht
    exact hE t (List.mem_of_mem_filter ht)
  | addTask taskData newId =>
    have htasks : (applyOp s (Op.addTask taskData newId)).tasks = s.tasks ++
        [{ id := newId, title := taskData.title, content := taskData.content,
           completed := false, completionDate := taskData.completionDate,
           position := taskData.position, projectId := taskData.projectId,
           parentTaskId := none }] := by
      simp only [applyOp, addTask]
      rcases hp : taskData.projectId with _ | pid <;> simp only [hp] <;> split <;> rfl
    intro t ht
    rw [htasks] at ht
    rcases List.mem_append.mp ht with h | h
    · exact hE t h
    · rcases List.mem_singleton.mp h with rfl
      exact Or.inr rfl
  | updateTask taskId taskData =>
    have hop2 : taskData.projectId = none ∧ taskData.parentTaskId = none := hop
    have htasks : (applyOp s (Op.updateTask taskId taskData)).tasks =
        s.tasks.map (fun t0 => if t0.id = taskId then applyTaskPatch t0 taskData else t0) :=
      rfl
    intro t ht
    rw [htasks] at ht
    rcases List.mem_map.mp ht with ⟨t0, ht0, rfl⟩
    by_cases h0 : t0.id = taskId
    · rw [if_pos h0]
      rcases hE t0 ht0 with h | h
      · left; simp [applyTaskPatch, hop2.1, h]
      · right; simp [applyTaskPatch, hop2.2, h]
    · rw [if_neg h0]
      exact hE t0 ht0
  | updateTaskPosition taskId position =>
    intro t ht
    rcases List.mem_map.mp ht with ⟨t0, ht0, rfl⟩
    by_cases h0 : t0.id = taskId
    · rw [if_pos h0]; exact hE t0 ht0
    · rw [if_neg h0]; exact hE t0 ht0
  | deleteTask taskId =>
    have htasks : (applyOp s (Op.deleteTask taskId)).tasks =
        s.tasks.filter (fun t0 => decide (t0.id ≠ taskId)) := by
      simp only [applyOp, deleteTask]
      rcases hf : s.tasks.find? (fun t => decide (t.id = taskId)) with _ | td <;>
        simp only [hf]
      rcases hp : td.projectId with _ | pid <;> simp only [hp]
    intro t ht
    rw [htasks] at ht
    exact hE t (List.mem_of_mem_filter ht)
  | moveProjectGroup projectId delta =>
    simp only [applyOp, moveProjectGroup]
    rcases hf : s.projects.find? (fun p => decide (p.id = projectId)) with _ | proj <;>
      simp only [hf]
    · exact hE
    · intro t ht
      rcases List.mem_map.mp ht with ⟨t0, ht0, rfl⟩
      split
      · exact hE t0 ht0
      · exact hE t0 ht0
  | moveTaskSubtree rootTaskId delta =>
    simp only [applyOp, moveTaskSubtree]
    split
    · exact hE
    · rcases hf : s.tasks.find? (fun t => decide (t.id = rootTaskId)) with _ | t0 <;>
        simp only [hf]
      · exact hE
      · split
        · exact hE
        · intro t ht
          rcases List.mem_map.mp ht with ⟨t1, ht1, rfl⟩
          split
          · exact hE t1 ht1
          · exact hE t1 ht1
  | linkTaskToProject taskId projectId =>
    simp only [applyOp, linkTaskToProject]
    split
    all_goals
      intro t ht
      rcases List.mem_map.mp ht with ⟨t0, ht0, rfl⟩
      by_cases h0 : t0.id = taskId
      · rw [if_pos h0]; exact Or.inr rfl
      · rw [if_neg h0]; exact hE t0 ht0
  | linkTaskToTask childTaskId parentTaskId now =>
    intro t ht
    rcases List.mem_map.mp ht with ⟨t0, ht0, rfl⟩
    by_cases h0 : t0.id = childTaskId
    · rw [if_pos h0]; exact Or.inl rfl
    · rw [if_neg h0]
      by_cases h1 : t0.id = parentTaskId
      · rw [if_pos h1]; exact hE t0 ht0
      · rw [if_neg h1]; exact hE t0 ht0
  | unlinkTask projectId taskId =>
    simp only [applyOp, unlinkTask]
    split
    · intro t ht
      rcases List.mem_map.mp ht with ⟨t0, ht0, rfl⟩
      by_cases h0 : t0.id = taskId
      · rw [if_pos h0]; exact Or.inl rfl
      · rw [if_neg h0]; exact hE t0 ht0
    · exact hE
  | unlinkTaskFromParent childTaskId =>
    simp only [applyOp, unlinkTaskFromParent]
    rcases hf : s.tasks.find? (fun t => decide (t.id = childTaskId)) with _ | childTask <;>
      simp only [hf]
    · exact hE
    · rcases hp : childTask.parentTaskId with _ | pp <;> simp only [hp]
      · exact hE
      · intro t ht
        rcases List.mem_map.mp ht with ⟨t0, ht0, rfl⟩
        by_cases h0 : t0.id = childTaskId
        · rw [if_pos h0]; exact Or.inr rfl
        · rw [if_neg h0]; exact hE t0 ht0

/-- C1: the exclusivity invariant is preserved by any sequence of the
claim's mutation operations — adds, links, unlinks, non-link updates, moves
and deletes: every task still has at most one of projectId, parentTaskId. -/
theorem exclusivity_invariant (s : StoreState) (ops : List Op) (hE : Exclusive s)
    (hops : ∀ op ∈ ops, LinkSafeOp op) : Exclusive (ops.foldl applyOp s) := by
  induction ops generalizing s with
  | nil => exact hE
  | cons op ops ih =>
    rw [List.foldl_cons]
    exact ih (applyOp s op) (applyOp_exclusive s op hE (hops op (List.mem_cons_self _ _)))
      (fun o ho => hops o (List.mem_cons_of_mem _ ho))

/-- Witness for C1 at a concrete input: a link, an unlink and a completion
update applied to `SCached` keep the invariant. -/
theorem exclusivity_invariant_witness :
    Exclusive SCached ∧
    (∀ op ∈ [Op.linkTaskToProject "t" "p", Op.unlinkTaskFromParent "t",
        Op.updateTask "t" { completed := some true }], LinkSafeOp op) ∧
    Exclusive (List.foldl applyOp SCached [Op.linkTaskToProject "t" "p",
        Op.unlinkTaskFromParent "t", Op.updateTask "t" { completed := some true }]) := by
  have h1 : Exclusive SCached := by
    show ∀ t ∈ SCached.tasks, t.projectId = none ∨ t.parentTaskId = none
    decide
  have h2 : ∀ op ∈ [Op.linkTaskToProject "t" "p", Op.unlinkTaskFromParent "t",
      Op.updateTask "t" { completed := some true }], LinkSafeOp op := by
    intro op hop
    simp only [List.mem_cons, List.not_mem_nil, or_false] at hop
    rcases hop with rfl | rfl | rfl
    · exact trivial
    · exact trivial
    · exact ⟨rfl, rfl⟩
  exact ⟨h1, h2, exclusivity_invariant SCached _ h1 h2⟩

end Planner
